import Mathlib

/-!
Shallow embedding of the `alphabet_mask` Rust crate (src/rust/lib.rs and
src/rust/chunks.rs) and proofs about its specification.

Machine integers are modelled as `Nat` with explicit truncation where the
source truncates: a Rust `char` cast `c as u8` becomes `c.toNat % 256`,
`u32` masks stay below `2 ^ 32` (proved, not assumed), and the `usize`
counter of the strategy dispatcher is overflow-checked against `2 ^ 64`.
Rust `Result<T, E>` becomes `Except E T`; the encoding error carries the
offending character. Rust iterators over `&str` become `List String`,
and `str::len` (UTF-8 byte length) becomes `String.utf8ByteSize`.
-/

namespace AlphabetMask

/-- Numeric value of `u32::MAX`, the all-ones 32-bit mask. -/
def UMAX : Nat := 2 ^ 32 - 1

/-- One past `usize::MAX` on a 64-bit target: `checked_add` succeeds iff the
sum stays below this bound. -/
def USIZE_BOUND : Nat := 2 ^ 64

/-- Default chunk length limit from chunks.rs: `1 << 20` bytes. -/
def LENGTH_LIMIT_PER_CHUNK : Nat := 1 <<< 20

/-- Truncating cast `c as u8` of a Rust `char` (its scalar value mod 256). -/
def charByte (c : Char) : Nat := c.toNat % 256

/-- Loop of `mask_string` from lib.rs: `try_fold` over the characters.
The match arms appear in source order: the six punctuation byte values,
then the guard `v & 64 == 0 || v & 128 != 0` that raises the error, then
the catch-all `1 << (char_code & 31)`. -/
def maskFold : Nat → List Char → Except Char Nat
  | acc, [] => .ok acc
  | acc, c :: cs =>
    let v := charByte c
    if v = 32 then maskFold (acc ||| 1) cs
    else if v = 46 then maskFold (acc ||| (1 <<< 27)) cs
    else if v = 44 then maskFold (acc ||| (1 <<< 28)) cs
    else if v = 39 then maskFold (acc ||| (1 <<< 29)) cs
    else if v = 45 then maskFold (acc ||| (1 <<< 30)) cs
    else if v = 34 then maskFold (acc ||| (1 <<< 31)) cs
    else if v &&& 64 = 0 ∨ v &&& 128 ≠ 0 then .error c
    else maskFold (acc ||| (1 <<< (v &&& 31))) cs

/-- `mask_string` from lib.rs: fold the per-character bits from seed 0,
failing fast on the first invalid character. -/
def mask_string (s : String) : Except Char Nat := maskFold 0 s.data

/-- Rendering table of `mask_to_chars` from lib.rs: bit index to character. -/
def maskChar (i : Nat) : Char :=
  if i = 0 then ' '
  else if i = 27 then '.'
  else if i = 28 then ','
  else if i = 29 then '\''
  else if i = 30 then '-'
  else if i = 31 then '"'
  else Char.ofNat (96 + i)

/-- `mask_to_chars` from lib.rs: fold over bit indices 0..=31, pushing the
rendered character of each set bit onto the accumulating string. -/
def mask_to_chars (mask : Nat) : String :=
  (List.range 32).foldl
    (fun acc i => if mask &&& (1 <<< i) ≠ 0 then acc.push (maskChar i) else acc) ""

/-- Loop of `intersect_masks` from lib.rs: `try_fold` with bitwise AND,
propagating the first error. -/
def intersectFrom : Nat → List (Except Char Nat) → Except Char Nat
  | acc, [] => .ok acc
  | acc, r :: rs =>
    match r with
    | .ok m => intersectFrom (acc &&& m) rs
    | .error e => .error e

/-- `intersect_masks` from lib.rs: seed the AND-fold with `u32::MAX`. -/
def intersect_masks (rs : List (Except Char Nat)) : Except Char Nat :=
  intersectFrom UMAX rs

/-- `find_common_mask` from lib.rs. -/
def find_common_mask (strings : List String) : Except Char Nat :=
  intersect_masks (strings.map mask_string)

/-- Loop body of `Chunker::next` from chunks.rs, unrolled over the whole
input: `chunk` and `length` are the accumulating chunk and its byte total
inside one `next` call; emitting a chunk corresponds to consing it onto the
chunks of the remaining iterator. When a string does not fit and the
accumulating chunk is nonempty, the chunk is emitted and the string stays
in the iterator (it is only peeked, not consumed). -/
def chunkerGo (limit : Nat) : List String → Nat → List String → List (List String)
  | chunk, _, [] => if chunk.isEmpty then [] else [chunk]
  | chunk, length, s :: rest =>
    if length + s.utf8ByteSize > limit then
      match chunk with
      | [] => [s] :: chunkerGo limit [] 0 rest
      | _ :: _ => chunk :: chunkerGo limit [] 0 (s :: rest)
    else
      chunkerGo limit (chunk ++ [s]) (length + s.utf8ByteSize) rest
termination_by chunk _ l => 2 * l.length + min chunk.length 1
decreasing_by
  all_goals simp
  all_goals omega

/-- Full run of a `Chunker` built by `Chunker::with_length_limit`: the list
of all chunks it yields. A fresh `next` call starts with an empty chunk and
zero length. -/
def chunker (limit : Nat) (strings : List String) : List (List String) :=
  chunkerGo limit [] 0 strings

/-- `chunk_strings_by` from lib.rs: use the default limit when none given. -/
def chunk_strings_by (strings : List String) (length_limit : Option Nat) :
    List (List String) :=
  match length_limit with
  | some limit => chunker limit strings
  | none => chunker LENGTH_LIMIT_PER_CHUNK strings

/-- `find_common_mask_parallel` from lib.rs: per-chunk sequential mask, then
`try_reduce` with identity `u32::MAX` and bitwise AND. The reduction is
modelled in chunk order; AND is associative and commutative, so the success
value is independent of worker scheduling. -/
def find_common_mask_parallel (strings : List String) (length_limit : Option Nat) :
    Except Char Nat :=
  intersectFrom UMAX ((chunk_strings_by strings length_limit).map find_common_mask)

/-- Total UTF-8 byte length of a list of strings. -/
def sumLen (strings : List String) : Nat :=
  (strings.map String.utf8ByteSize).sum

/-- Dispatcher scan of `common_alphabets` from lib.rs: `try_fold` with
`checked_add`, failing (selecting the chunked strategy) on overflow or when
the running sum exceeds the limit. -/
def err_if_parallelise (limit : Nat) : Nat → List String → Except Unit Nat
  | acc, [] => .ok acc
  | acc, s :: rest =>
    if acc + s.utf8ByteSize < USIZE_BOUND then
      if acc + s.utf8ByteSize > limit then .error ()
      else err_if_parallelise limit (acc + s.utf8ByteSize) rest
    else .error ()

/-- `common_alphabets` from lib.rs: default the limit, run the dispatcher
scan, then either the sequential or the chunked reduction, rendering the
resulting mask. -/
def common_alphabets (strings : List String) (length_limit : Option Nat) :
    Except Char String :=
  let limit := length_limit.getD LENGTH_LIMIT_PER_CHUNK
  match err_if_parallelise limit 0 strings with
  | .ok _ => (find_common_mask strings).map mask_to_chars
  | .error _ => (find_common_mask_parallel strings (some limit)).map mask_to_chars

/-- Modelled from the spec's words (for comparison with the code, §4.1): a
character the spec deems encodable — one of the six punctuation symbols or
an ASCII letter of either case. -/
def specEncodableChar (c : Char) : Bool :=
  c = ' ' || c = '.' || c = ',' || c = '\'' || c = '-' || c = '"' ||
    (65 ≤ c.toNat && c.toNat ≤ 90) || (97 ≤ c.toNat && c.toNat ≤ 122)

/-- Modelled from the spec's words (§4.1): the single bit the spec assigns
to an encodable character (letters: low five bits of the byte value). -/
def specCharBit (c : Char) : Nat :=
  if c = ' ' then 1
  else if c = '.' then 1 <<< 27
  else if c = ',' then 1 <<< 28
  else if c = '\'' then 1 <<< 29
  else if c = '-' then 1 <<< 30
  else if c = '"' then 1 <<< 31
  else 1 <<< (c.toNat &&& 31)

/-- Characters the code actually accepts: the six punctuation byte values,
or a truncated byte with bit 6 set and bit 7 clear (range 64..=127). -/
def codeValidChar (c : Char) : Bool :=
  let v := charByte c
  (v == 32) || (v == 46) || (v == 44) || (v == 39) || (v == 45) || (v == 34) ||
    ((v &&& 64 != 0) && (v &&& 128 == 0))

/-- Bit the code computes for an accepted character (the `Ok` arms of
`mask_string` in source order, collapsed into one table). -/
def codeCharBit (c : Char) : Nat :=
  let v := charByte c
  if v = 32 then 1
  else if v = 46 then 1 <<< 27
  else if v = 44 then 1 <<< 28
  else if v = 39 then 1 <<< 29
  else if v = 45 then 1 <<< 30
  else if v = 34 then 1 <<< 31
  else 1 <<< (v &&& 31)

theorem chunkerGo_singleton (limit : Nat) (s : String) (rest : List String)
    (h : 0 + s.utf8ByteSize > limit) :
    chunkerGo limit [] 0 (s :: rest) = [s] :: chunkerGo limit [] 0 rest := by
  rw [chunkerGo.eq_2, if_pos h]

theorem chunkerGo_cons_emit (limit length : Nat) (s head : String)
    (tail rest : List String) (h : length + s.utf8ByteSize > limit) :
    chunkerGo limit (head :: tail) length (s :: rest) =
      (head :: tail) :: chunkerGo limit [] 0 (s :: rest) := by
  rw [chunkerGo.eq_def]
  simp [h]

theorem chunkerGo_push (limit length : Nat) (s : String)
    (chunk rest : List String) (h : ¬length + s.utf8ByteSize > limit) :
    chunkerGo limit chunk length (s :: rest) =
      chunkerGo limit (chunk ++ [s]) (length + s.utf8ByteSize) rest := by
  rw [chunkerGo.eq_def]
  simp [h]

theorem chunkerGo_flatten (limit : Nat) (chunk : List String) (length : Nat)
    (l : List String) : (chunkerGo limit chunk length l).flatten = chunk ++ l := by
  induction chunk, length, l using chunkerGo.induct limit with
  | case1 chunk length h =>
    simp [chunkerGo.eq_1, List.isEmpty_iff.mp h]
  | case2 chunk length h =>
    simp [chunkerGo.eq_1, h]
  | case3 length s rest h ih =>
    simp [chunkerGo.eq_2, h, ih]
  | case4 length s rest h head tail ih =>
    rw [chunkerGo_cons_emit limit length s head tail rest h]
    simp [ih]
  | case5 chunk length s rest h ih =>
    rw [chunkerGo_push limit length s chunk rest h]
    simpa using ih

theorem chunker_flatten (limit : Nat) (strings : List String) :
    (chunker limit strings).flatten = strings := by
  simpa using chunkerGo_flatten limit [] 0 strings

theorem sumLen_append (a b : List String) : sumLen (a ++ b) = sumLen a + sumLen b := by
  simp [sumLen]

theorem sumLen_cons (s : String) (l : List String) :
    sumLen (s :: l) = s.utf8ByteSize + sumLen l := by
  simp [sumLen]

theorem chunkerGo_bound (limit : Nat) (chunk : List String) (length : Nat)
    (l : List String) :
    length = sumLen chunk → length ≤ limit →
    ∀ c ∈ chunkerGo limit chunk length l,
      c ≠ [] ∧ (sumLen c ≤ limit ∨ ∃ s, c = [s] ∧ limit < s.utf8ByteSize) := by
  induction chunk, length, l using chunkerGo.induct limit with
  | case1 chunk length h =>
    intro h1 h2 c hc
    simp [chunkerGo.eq_1, List.isEmpty_iff.mp h] at hc
  | case2 chunk length h =>
    intro h1 h2 c hc
    simp [chunkerGo.eq_1, h] at hc
    subst hc
    exact ⟨List.isEmpty_eq_false.mp (by simpa using h), Or.inl (h1 ▸ h2)⟩
  | case3 length s rest h ih =>
    intro h1 h2 c hc
    simp only [sumLen, List.map_nil, List.sum_nil] at h1
    subst h1
    rw [chunkerGo_singleton limit s rest h] at hc
    rcases List.mem_cons.mp hc with hc | hc
    · subst hc
      refine ⟨by simp, Or.inr ⟨s, rfl, ?_⟩⟩
      omega
    · exact ih (by simp [sumLen]) (Nat.zero_le _) c hc
  | case4 length s rest h head tail ih =>
    intro h1 h2 c hc
    rw [chunkerGo_cons_emit limit length s head tail rest h] at hc
    rcases List.mem_cons.mp hc with hc | hc
    · subst hc
      exact ⟨by simp, Or.inl (h1 ▸ h2)⟩
    · exact ih (by simp [sumLen]) (Nat.zero_le _) c hc
  | case5 chunk length s rest h ih =>
    intro h1 h2 c hc
    rw [chunkerGo_push limit length s chunk rest h] at hc
    exact ih (by simp [sumLen_append, sumLen, h1]) (by omega) c hc

/-- C1: for every finite ordered sequence of input strings and every
length_limit ≥ 1, concatenating the strings of all chunks emitted by the
Chunker, in emission order, reproduces the original input sequence exactly
(no string dropped, duplicated, reordered, or split), including when some
strings are individually longer than length_limit. -/
theorem chunker_coverage (limit : Nat) (h : 1 ≤ limit) (strings : List String) :
    (chunker limit strings).flatten = strings :=
  chunker_flatten limit strings

theorem chunker_coverage_witness :
    1 ≤ 1 ∧ (chunker 1 ["ab", "c"]).flatten = ["ab", "c"] :=
  ⟨by decide, chunker_coverage 1 (by decide) ["ab", "c"]⟩

/-- C3: for every input sequence and every length_limit ≥ 1, every chunk
emitted by the Chunker is non-empty and either has total byte length at
most length_limit or is a singleton whose sole string is longer than
length_limit; an empty input yields zero chunks. -/
theorem chunker_chunk_bound (limit : Nat) (h : 1 ≤ limit) (strings : List String) :
    (∀ c ∈ chunker limit strings,
      c ≠ [] ∧ (sumLen c ≤ limit ∨ ∃ s, c = [s] ∧ limit < s.utf8ByteSize)) ∧
    chunker limit [] = [] := by
  constructor
  · exact chunkerGo_bound limit [] 0 strings (by simp [sumLen]) (Nat.zero_le _)
  · simp [chunker, chunkerGo.eq_1]

theorem chunker_chunk_bound_witness :
    1 ≤ 2 ∧
      ((∀ c ∈ chunker 2 ["abc", "a"],
        c ≠ [] ∧ (sumLen c ≤ 2 ∨ ∃ s, c = [s] ∧ 2 < s.utf8ByteSize)) ∧
      chunker 2 [] = []) :=
  ⟨by decide, chunker_chunk_bound 2 (by decide) ["abc", "a"]⟩

/-- C9 counterexample: the code does not validate the length limit — a
Chunker constructed with length_limit = 0 proceeds to produce chunks
(here, one singleton chunk) rather than rejecting the configuration. -/
theorem chunker_zero_accepted :
    chunker 0 ["a"] = [["a"]] ∧ chunker 0 ["a"] ≠ [] := by
  have h1 : ("a" : String).utf8ByteSize = 1 := rfl
  have h : chunker 0 ["a"] = [["a"]] := by
    simp [chunker, chunkerGo, h1]
  exact ⟨h, by simp [h]⟩

/-- C9 amended: `Chunker::with_length_limit` performs no validation of the
length limit: a limit of zero is accepted and chunking proceeds as for any
other limit, still covering the input exactly. -/
theorem chunker_zero_no_validation (strings : List String) :
    (chunker 0 strings).flatten = strings :=
  chunker_flatten 0 strings

theorem UMAX_lt : UMAX < 2 ^ 32 := by decide

theorem and_UMAX (a : Nat) (h : a < 2 ^ 32) : a &&& UMAX = a := by
  apply Nat.eq_of_testBit_eq
  intro i
  rw [Nat.testBit_land]
  by_cases hi : i < 32
  · rw [show (UMAX : Nat) = 2 ^ 32 - 1 from rfl, Nat.testBit_two_pow_sub_one]
    simp [hi]
  · have hlt : a < 2 ^ i :=
      lt_of_lt_of_le h (Nat.pow_le_pow_right (by norm_num) (by omega))
    simp [Nat.testBit_eq_false_of_lt hlt]

theorem intersectFrom_append (acc : Nat) (xs ys : List (Except Char Nat)) :
    intersectFrom acc (xs ++ ys) =
      match intersectFrom acc xs with
      | .ok a => intersectFrom a ys
      | .error e => .error e := by
  induction xs generalizing acc with
  | nil => rfl
  | cons r rs ih => cases r <;> simp [intersectFrom, ih]

theorem intersectFrom_scale (xs : List (Except Char Nat)) (acc : Nat)
    (h : acc < 2 ^ 32) :
    intersectFrom acc xs = (intersectFrom UMAX xs).map (fun m => acc &&& m) := by
  induction xs generalizing acc with
  | nil => simp [intersectFrom, Except.map, and_UMAX acc h]
  | cons r rs ih =>
    cases r with
    | error e => simp [intersectFrom, Except.map]
    | ok m =>
      simp only [intersectFrom]
      rw [ih _ (Nat.lt_of_le_of_lt Nat.and_le_left h),
        ih _ (Nat.lt_of_le_of_lt Nat.and_le_left UMAX_lt)]
      cases intersectFrom UMAX rs with
      | error e => simp [Except.map]
      | ok m' =>
        simp only [Except.map]
        congr 1
        rw [← Nat.and_assoc, ← Nat.and_assoc, and_UMAX acc h]

theorem intersectFrom_chunks (css : List (List String)) (acc : Nat)
    (h : acc < 2 ^ 32) :
    intersectFrom acc (css.map find_common_mask) =
      intersectFrom acc (css.flatten.map mask_string) := by
  induction css generalizing acc with
  | nil => rfl
  | cons cs css ih =>
    rw [List.map_cons, List.flatten_cons, List.map_append, intersectFrom_append]
    have hseq : intersectFrom acc (cs.map mask_string) =
        (find_common_mask cs).map (fun m => acc &&& m) :=
      intersectFrom_scale (cs.map mask_string) acc h
    rw [hseq]
    cases hcs : find_common_mask cs with
    | error e => simp [intersectFrom, hcs, Except.map]
    | ok m =>
      simp only [intersectFrom, hcs, Except.map]
      exact ih (acc &&& m) (Nat.lt_of_le_of_lt Nat.and_le_left h)

/-- C2: the sequential reduction and the chunked reduction agree for every
input and every length limit (including the defaulted one): in this
deterministic model they are equal outright, so success/failure and the
resulting 32-bit mask coincide; chunk boundaries never change the result. -/
theorem strategy_equivalence (strings : List String) (length_limit : Option Nat) :
    find_common_mask_parallel strings length_limit = find_common_mask strings := by
  rw [find_common_mask_parallel]
  have hflat : (chunk_strings_by strings length_limit).flatten = strings := by
    cases length_limit <;> simp [chunk_strings_by, chunker_flatten]
  rw [intersectFrom_chunks _ UMAX UMAX_lt, hflat]
  rfl

end AlphabetMask
namespace AlphabetMask

theorem maskFold_cons (c : Char) (cs : List Char) (acc : Nat) :
    maskFold acc (c :: cs) =
      if codeValidChar c then maskFold (acc ||| codeCharBit c) cs
      else .error c := by
  simp only [maskFold, codeValidChar, codeCharBit]
  by_cases h32 : charByte c = 32
  · simp [h32]
  by_cases h46 : charByte c = 46
  · simp [h32, h46]
  by_cases h44 : charByte c = 44
  · simp [h32, h46, h44]
  by_cases h39 : charByte c = 39
  · simp [h32, h46, h44, h39]
  by_cases h45 : charByte c = 45
  · simp [h32, h46, h44, h39, h45]
  by_cases h34 : charByte c = 34
  · simp [h32, h46, h44, h39, h45, h34]
  by_cases hg : charByte c &&& 64 = 0 ∨ charByte c &&& 128 ≠ 0
  · have hb : ((charByte c &&& 64 != 0) && (charByte c &&& 128 == 0)) = false := by
      rcases hg with hg | hg <;> simp [hg]
    simp [h32, h46, h44, h39, h45, h34, hg, hb]
  · have hb : ((charByte c &&& 64 != 0) && (charByte c &&& 128 == 0)) = true := by
      push_neg at hg
      simp [hg.1, hg.2]
    simp [h32, h46, h44, h39, h45, h34, hg, hb]

theorem maskFold_error_iff (l : List Char) (acc : Nat) (e : Char) :
    maskFold acc l = .error e ↔
      l.find? (fun c => !codeValidChar c) = some e := by
  induction l generalizing acc with
  | nil => simp [maskFold]
  | cons c cs ih =>
    rw [maskFold_cons]
    by_cases hv : codeValidChar c
    · rw [if_pos hv, List.find?_cons_of_neg _ (by simp [hv]), ih]
    · rw [if_neg hv, List.find?_cons_of_pos _ (by simp [hv])]
      constructor
      · intro h
        injection h with h
        exact congrArg some h
      · intro h
        injection h with h
        exact congrArg Except.error h

theorem maskFold_ok_total (l : List Char) (acc : Nat) :
    (∃ m, maskFold acc l = .ok m) ∨ ∃ e, maskFold acc l = .error e := by
  cases h : maskFold acc l with
  | ok m => exact Or.inl ⟨m, rfl⟩
  | error e => exact Or.inr ⟨e, rfl⟩

/-- C4 amended: `mask_string` fails exactly when some character's truncated
byte value (`c as u8`) is outside the accepted set — the six punctuation
bytes and the range 64..=127 (bit 6 set, bit 7 clear) — and the error names
the first such character; it succeeds iff every character is accepted. The
spec's narrower set (letters plus the six punctuation marks, 7-bit ASCII
only) does not match: bytes such as 64 `@` or 91 `[` are accepted. -/
theorem mask_string_error_iff (s : String) :
    (∀ e, mask_string s = .error e ↔
      s.data.find? (fun c => !codeValidChar c) = some e) ∧
    ((∃ m, mask_string s = .ok m) ↔ ∀ c ∈ s.data, codeValidChar c = true) := by
  constructor
  · exact fun e => maskFold_error_iff s.data 0 e
  · constructor
    · rintro ⟨m, hm⟩ c hc
      by_contra hcv
      have hfind : s.data.find? (fun c => !codeValidChar c) ≠ none := by
        intro hnone
        rw [List.find?_eq_none] at hnone
        exact hcv (by simpa using hnone c hc)
      cases hf : s.data.find? (fun c => !codeValidChar c) with
      | none => exact hfind hf
      | some e =>
        rw [mask_string, (maskFold_error_iff s.data 0 e).mpr hf] at hm
        exact Except.noConfusion hm
    · intro hall
      rcases maskFold_ok_total s.data 0 with h | ⟨e, he⟩
      · exact h
      · rw [show maskFold 0 s.data = mask_string s from rfl] at he
        have := ((maskFold_error_iff s.data 0 e).mp he)
        have hmem := List.mem_of_find?_eq_some this
        have := List.find?_some this
        simp [hall e hmem] at this

/-- C4 counterexample: the claim that the encoder errors exactly on strings
containing a character outside {ASCII letters, the six punctuation symbols}
is false: `"@"` contains such a character yet encodes to `Ok(1)`. -/
theorem mask_string_spec_error_counterexample :
    ¬ (∀ s : String, (∃ c ∈ s.data, specEncodableChar c = false) →
        ∃ e, mask_string s = .error e) := by
  intro hclaim
  obtain ⟨e, he⟩ := hclaim "@" ⟨'@', by decide, by decide⟩
  rw [show mask_string "@" = .ok 1 from rfl] at he
  exact Except.noConfusion he

end AlphabetMask
namespace AlphabetMask

theorem letter_byte_facts (v : Nat)
    (h : (65 ≤ v ∧ v ≤ 90) ∨ (97 ≤ v ∧ v ≤ 122)) :
    v % 256 = v ∧ v &&& 64 ≠ 0 ∧ v &&& 128 = 0 := by
  rcases h with ⟨h1, h2⟩ | ⟨h1, h2⟩ <;> (interval_cases v <;> decide)

theorem letter_char_accepted (c : Char)
    (h : (65 ≤ c.toNat ∧ c.toNat ≤ 90) ∨ (97 ≤ c.toNat ∧ c.toNat ≤ 122)) :
    codeValidChar c = true ∧ codeCharBit c = specCharBit c := by
  obtain ⟨hmod, h64, h128⟩ := letter_byte_facts c.toNat h
  have hlb : 65 ≤ c.toNat := by rcases h with ⟨h1, _⟩ | ⟨h1, _⟩ <;> omega
  constructor
  · simp [codeValidChar, charByte, hmod, h64, h128]
  · have hc1 : c ≠ ' ' := by rintro rfl; exact absurd hlb (by decide)
    have hc2 : c ≠ '.' := by rintro rfl; exact absurd hlb (by decide)
    have hc3 : c ≠ ',' := by rintro rfl; exact absurd hlb (by decide)
    have hc4 : c ≠ '\'' := by rintro rfl; exact absurd hlb (by decide)
    have hc5 : c ≠ '-' := by rintro rfl; exact absurd hlb (by decide)
    have hc6 : c ≠ '"' := by rintro rfl; exact absurd hlb (by decide)
    have hn1 : ¬(c.toNat = 32) := by omega
    have hn2 : ¬(c.toNat = 46) := by omega
    have hn3 : ¬(c.toNat = 44) := by omega
    have hn4 : ¬(c.toNat = 39) := by omega
    have hn5 : ¬(c.toNat = 45) := by omega
    have hn6 : ¬(c.toNat = 34) := by omega
    simp [codeCharBit, specCharBit, charByte, hmod, hc1, hc2, hc3, hc4, hc5,
      hc6, hn1, hn2, hn3, hn4, hn5, hn6]

theorem spec_char_accepted (c : Char) (h : specEncodableChar c = true) :
    codeValidChar c = true ∧ codeCharBit c = specCharBit c := by
  simp only [specEncodableChar, Bool.or_eq_true, decide_eq_true_eq,
    Bool.and_eq_true] at h
  rcases h with ((((((h | h) | h) | h) | h) | h) | ⟨h1, h2⟩) | ⟨h1, h2⟩
  · subst h; exact ⟨by decide, by decide⟩
  · subst h; exact ⟨by decide, by decide⟩
  · subst h; exact ⟨by decide, by decide⟩
  · subst h; exact ⟨by decide, by decide⟩
  · subst h; exact ⟨by decide, by decide⟩
  · subst h; exact ⟨by decide, by decide⟩
  · exact letter_char_accepted c (Or.inl ⟨h1, h2⟩)
  · exact letter_char_accepted c (Or.inr ⟨h1, h2⟩)

theorem maskFold_spec (l : List Char) (h : ∀ c ∈ l, specEncodableChar c = true)
    (acc : Nat) :
    maskFold acc l = .ok (l.foldl (fun a c => a ||| specCharBit c) acc) := by
  induction l generalizing acc with
  | nil => rfl
  | cons c cs ih =>
    obtain ⟨hv, hb⟩ := spec_char_accepted c (h c (by simp))
    rw [maskFold_cons, if_pos hv, hb, List.foldl_cons]
    exact ih (fun c hc => h c (by simp [hc])) _

/-- C5: on every string all of whose characters are in the spec's encodable
set, the encoder succeeds and the mask is the bitwise OR over the characters
of the spec's per-character bit (space bit 0, full stop 27, comma 28,
apostrophe 29, hyphen 30, double quote 31, letters case-insensitively at
their low five bits, bits 1–26). -/
theorem mask_string_spec_value (s : String)
    (h : ∀ c ∈ s.data, specEncodableChar c = true) :
    mask_string s = .ok (s.data.foldl (fun a c => a ||| specCharBit c) 0) :=
  maskFold_spec s.data h 0

theorem mask_string_spec_value_witness :
    (∀ c ∈ (" AaBb" : String).data, specEncodableChar c = true) ∧
      mask_string " AaBb" =
        .ok ((" AaBb" : String).data.foldl (fun a c => a ||| specCharBit c) 0) :=
  ⟨by decide, mask_string_spec_value " AaBb" (by decide)⟩

end AlphabetMask
namespace AlphabetMask

theorem codeCharBit_lt (c : Char) : codeCharBit c < 2 ^ 32 := by
  have hb : charByte c &&& 31 ≤ 31 := Nat.and_le_right
  unfold codeCharBit
  dsimp only
  split_ifs <;>
    first
      | decide
      | (rw [Nat.one_shiftLeft]
         exact lt_of_le_of_lt (Nat.pow_le_pow_right (by norm_num) hb) (by norm_num))

theorem maskFold_lt (l : List Char) (acc : Nat) (h : acc < 2 ^ 32) (m : Nat)
    (hm : maskFold acc l = .ok m) : m < 2 ^ 32 := by
  induction l generalizing acc with
  | nil =>
    simp only [maskFold, Except.ok.injEq] at hm
    exact hm ▸ h
  | cons c cs ih =>
    rw [maskFold_cons] at hm
    by_cases hv : codeValidChar c
    · rw [if_pos hv] at hm
      exact ih _ (Nat.or_lt_two_pow h (codeCharBit_lt c)) hm
    · rw [if_neg hv] at hm
      exact Except.noConfusion hm

theorem mask_string_lt (s : String) (m : Nat) (h : mask_string s = .ok m) :
    m < 2 ^ 32 :=
  maskFold_lt s.data 0 (by norm_num) m h

theorem mask_to_chars_data (mask : Nat) :
    (mask_to_chars mask).data =
      ((List.range 32).filter (fun i => decide (mask &&& (1 <<< i) ≠ 0))).map
        maskChar := by
  suffices h : ∀ (l : List Nat) (acc : String),
      (l.foldl
        (fun acc i => if mask &&& (1 <<< i) ≠ 0 then acc.push (maskChar i) else acc)
        acc).data
        = acc.data ++ (l.filter (fun i => decide (mask &&& (1 <<< i) ≠ 0))).map
            maskChar by
    simpa [mask_to_chars] using h (List.range 32) ""
  intro l
  induction l with
  | nil => intro acc; simp
  | cons i is ih =>
    intro acc
    rw [List.foldl_cons, List.filter_cons]
    by_cases hc : mask &&& (1 <<< i) ≠ 0
    · rw [if_pos hc, ih]
      simp [hc, String.data_push]
    · rw [if_neg hc, ih]
      simp [hc]

theorem maskFold_cons_maskChar (i : Nat) (h : i < 32) (acc : Nat) (cs : List Char) :
    maskFold acc (maskChar i :: cs) = maskFold (acc ||| 1 <<< i) cs := by
  interval_cases i <;> rfl

theorem maskFold_map_maskChar (is : List Nat) (h : ∀ i ∈ is, i < 32) (acc : Nat) :
    maskFold acc (is.map maskChar) = .ok (is.foldl (fun a i => a ||| 1 <<< i) acc) := by
  induction is generalizing acc with
  | nil => rfl
  | cons i is ih =>
    rw [List.map_cons, maskFold_cons_maskChar i (h i (by simp)), List.foldl_cons]
    exact ih (fun i hi => h i (by simp [hi])) _

theorem orFold_testBit (is : List Nat) (acc : Nat) (j : Nat) :
    (is.foldl (fun a i => a ||| 1 <<< i) acc).testBit j = true ↔
      acc.testBit j = true ∨ j ∈ is := by
  induction is generalizing acc with
  | nil => simp
  | cons i is ih =>
    rw [List.foldl_cons, ih]
    rw [Nat.testBit_lor, Nat.one_shiftLeft, Nat.testBit_two_pow]
    simp only [List.mem_cons, Bool.or_eq_true, decide_eq_true_eq]
    constructor
    · rintro ((h | h) | h)
      · exact Or.inl h
      · exact Or.inr (Or.inl h.symm)
      · exact Or.inr (Or.inr h)
    · rintro (h | h | h)
      · exact Or.inl (Or.inl h)
      · exact Or.inl (Or.inr h.symm)
      · exact Or.inr h

theorem and_shift_ne_iff (m j : Nat) : (m &&& 1 <<< j ≠ 0) ↔ m.testBit j = true := by
  rw [Nat.one_shiftLeft, Nat.and_two_pow]
  cases h : m.testBit j
  · simp
  · simp [(Nat.two_pow_pos j).ne']

theorem mask_roundtrip (m : Nat) (h : m < 2 ^ 32) :
    mask_string (mask_to_chars m) = .ok m := by
  rw [mask_string, mask_to_chars_data]
  rw [maskFold_map_maskChar _ (fun i hi =>
    List.mem_range.mp (List.mem_filter.mp hi).1) 0]
  congr 1
  apply Nat.eq_of_testBit_eq
  intro j
  by_cases hj : j < 32
  · rw [Bool.eq_iff_iff, orFold_testBit]
    rw [List.mem_filter, List.mem_range]
    simp only [Nat.zero_testBit, decide_eq_true_eq]
    rw [and_shift_ne_iff]
    constructor
    · rintro (h' | ⟨_, h'⟩)
      · exact absurd h' (by simp)
      · exact h'
    · intro h'
      exact Or.inr ⟨hj, h'⟩
  · have h1 : m.testBit j = false :=
      Nat.testBit_eq_false_of_lt
        (lt_of_lt_of_le h (Nat.pow_le_pow_right (by norm_num) (by omega)))
    rw [h1]
    rw [← Bool.not_eq_true]
    rw [orFold_testBit]
    rintro (h' | h')
    · exact absurd h' (by simp)
    · exact hj (List.mem_range.mp (List.mem_filter.mp h').1)

/-- C8: the encode → render → encode cycle is the identity on masks: any
mask produced by a successful encoding, rendered with `mask_to_chars` and
re-encoded with `mask_string`, yields the same mask. -/
theorem encode_render_encode (s : String) (m : Nat)
    (h : mask_string s = .ok m) :
    mask_string (mask_to_chars m) = .ok m :=
  mask_roundtrip m (mask_string_lt s m h)

theorem encode_render_encode_witness :
    mask_string "hi" = .ok 768 ∧ mask_string (mask_to_chars 768) = .ok 768 :=
  ⟨rfl, encode_render_encode "hi" 768 rfl⟩

end AlphabetMask
namespace AlphabetMask

theorem err_if_parallelise_ok_iff (limit : Nat) (strings : List String) :
    ∀ acc : Nat, acc < USIZE_BOUND → acc ≤ limit →
      ((∃ n, err_if_parallelise limit acc strings = .ok n) ↔
        acc + sumLen strings < USIZE_BOUND ∧ acc + sumLen strings ≤ limit) := by
  induction strings with
  | nil =>
    intro acc h1 h2
    constructor
    · intro _
      constructor <;> (simp [sumLen]) <;> omega
    · intro _
      exact ⟨acc, rfl⟩
  | cons s rest ih =>
    intro acc h1 h2
    simp only [err_if_parallelise]
    by_cases ha : acc + s.utf8ByteSize < USIZE_BOUND
    · by_cases hb : acc + s.utf8ByteSize > limit
      · rw [if_pos ha, if_pos hb]
        constructor
        · rintro ⟨n, hn⟩
          exact Except.noConfusion hn
        · rintro ⟨hc1, hc2⟩
          rw [sumLen_cons] at hc2
          omega
      · rw [if_pos ha, if_neg hb]
        rw [ih (acc + s.utf8ByteSize) ha (by omega), sumLen_cons]
        omega
    · rw [if_neg ha]
      constructor
      · rintro ⟨n, hn⟩
        exact Except.noConfusion hn
      · rintro ⟨hc1, hc2⟩
        rw [sumLen_cons] at hc1
        omega

/-- C6: the dispatcher in `common_alphabets` selects the sequential strategy
iff the overflow-checked running byte-length sum completes without
overflowing the `usize` counter and never exceeds the length limit,
equivalently iff the total byte length fits both bounds. -/
theorem dispatcher_sequential_iff (strings : List String) (limit : Nat) :
    (∃ n, err_if_parallelise limit 0 strings = .ok n) ↔
      sumLen strings < USIZE_BOUND ∧ sumLen strings ≤ limit := by
  simpa using err_if_parallelise_ok_iff limit strings 0 (by decide) (Nat.zero_le _)

/-- C7: combining an empty collection yields the all-ones seed mask and no
error, and `common_alphabets` on the empty list renders that mask: the
string listing all 32 encodable symbols in ascending bit order. -/
theorem empty_input_identity :
    intersect_masks [] = .ok UMAX ∧
    common_alphabets [] none = .ok " abcdefghijklmnopqrstuvwxyz.,'-\"" ∧
    mask_to_chars UMAX = " abcdefghijklmnopqrstuvwxyz.,'-\"" ∧
    ((List.range 32).all
      (fun i => (" abcdefghijklmnopqrstuvwxyz.,'-\"" : String).data.contains
        (maskChar i)))
      = true :=
  ⟨rfl, rfl, rfl, by decide⟩

theorem intersectFrom_le :
    ∀ (l : List (Except Char Nat)) (acc m : Nat),
      intersectFrom acc l = .ok m → m ≤ acc := by
  intro l
  induction l with
  | nil =>
    intro acc m h
    simp only [intersectFrom, Except.ok.injEq] at h
    exact h ▸ Nat.le_refl acc
  | cons r rs ih =>
    intro acc m h
    cases r with
    | error e => simp [intersectFrom] at h
    | ok m' =>
      simp only [intersectFrom] at h
      exact Nat.le_trans (ih _ m h) Nat.and_le_left

theorem intersectFrom_zero :
    ∀ (l : List (Except Char Nat)) (acc m : Nat),
      Except.ok 0 ∈ l → intersectFrom acc l = .ok m → m = 0 := by
  intro l
  induction l with
  | nil =>
    intro acc m hmem
    simp at hmem
  | cons r rs ih =>
    intro acc m hmem h
    rcases List.mem_cons.mp hmem with hr | hr
    · subst hr
      simp only [intersectFrom] at h
      have hle := intersectFrom_le rs (acc &&& 0) m h
      rw [Nat.and_zero] at hle
      omega
    · cases r with
      | error e => simp [intersectFrom] at h
      | ok m' =>
        simp only [intersectFrom] at h
        exact ih _ m hr h

/-- C10: encoding the empty string succeeds with the all-zero mask, and any
successful aggregation of a collection containing an empty string yields
the all-zero common mask. -/
theorem empty_string_zero_mask :
    mask_string "" = .ok 0 ∧
    ∀ (strings : List String) (m : Nat), "" ∈ strings →
      find_common_mask strings = .ok m → m = 0 := by
  refine ⟨rfl, fun strings m hmem h => ?_⟩
  refine intersectFrom_zero (strings.map mask_string) UMAX m ?_ h
  have h0 : mask_string "" = Except.ok 0 := rfl
  exact h0 ▸ List.mem_map_of_mem mask_string hmem

theorem empty_string_zero_mask_witness :
    find_common_mask ["", "abc"] = .ok 0 ∧ (0 : Nat) = 0 :=
  ⟨rfl, empty_string_zero_mask.2 ["", "abc"] 0 (by decide) rfl⟩

end AlphabetMask
